import Mathlib

/-!
# property-validation: path expansion and error projection

A shallow embedding of `src/index.js` (the `Validation` engine and its three
helpers `getProperty`, `setProperty`, `getPaths`) together with the properties
of the specification that were checked against it.

Modelling conventions.

* JavaScript values are the type `JSVal`.  Property reads see *own* properties
  only: the keys of a mapping, the indices and `length` of an array, the
  indices and `length` of a string.  Members inherited through the prototype
  chain (`constructor`, `toString`, ...) are outside the model.
* A hole of a sparse array reads as `undefined`, and is stored as `undefined`.
* A string is a sequence of UTF-16 code units; each `Char` of the Lean string
  stands for one code unit.
* Finite numbers are rationals (every finite double is one, and `-0` is
  identified with `0`); `NaN` and the two infinities are separate values.
* The source file is an ES module, hence strict-mode code: assigning to a
  property of a primitive raises `TypeError`.
* Array indices stay below `2^32 - 1`, the bound of JavaScript arrays.
* In-place mutation is rendered by state passing: `setProperty` returns the
  updated tree.
-/

namespace PropertyValidation

/-! ## Values -/

/-- JavaScript values that occur in value trees and error trees. -/
inductive JSVal where
  | undefined : JSVal
  | null : JSVal
  | bool (b : Bool) : JSVal
  | num (x : ℚ) : JSVal
  | nan : JSVal
  | inf (negative : Bool) : JSVal
  | str (s : String) : JSVal
  | obj (fields : List (String × JSVal)) : JSVal
  | arr (items : List JSVal) : JSVal

/-- One step of a concrete path: a field name or an array index. -/
inductive Step where
  | key (name : String) : Step
  | idx (i : Nat) : Step
  deriving DecidableEq, Repr

/-- What a rule call can raise.  `typeError` is the JavaScript `TypeError`;
`unsupported` marks a write that would put a named (non-index) property on an
array, which the tree model cannot hold. -/
inductive Fault where
  | typeError : Fault
  | unsupported : Fault
  deriving DecidableEq, Repr

/-- JavaScript truthiness (`ToBoolean`). -/
def truthy : JSVal → Bool
  | .undefined => false
  | .null => false
  | .bool b => b
  | .num x => decide (x ≠ 0)
  | .nan => false
  | .inf _ => true
  | .str s => decide (s ≠ "")
  | .obj _ => true
  | .arr _ => true

/-- The builtin `Array.isArray`. -/
def isArray : JSVal → Bool
  | .arr _ => true
  | _ => false

/-- Value of the first entry with key `k` of a mapping, `undefined` if none. -/
def lookupKey (k : String) : List (String × JSVal) → JSVal
  | [] => .undefined
  | (k', v) :: rest => if k' = k then v else lookupKey k rest

/-- Mapping update `o[k] = v`: replaces the entry of `k`, or appends one. -/
def setKey (k : String) (v : JSVal) : List (String × JSVal) → List (String × JSVal)
  | [] => [(k, v)]
  | (k', v') :: rest => if k' = k then (k, v) :: rest else (k', v') :: setKey k v rest

/-- Array update `a[i] = v`: replaces slot `i`, extending the array with holes
when `i` is at or beyond its length. -/
def setIndex : List JSVal → Nat → JSVal → List JSVal
  | [], 0, v => [v]
  | [], i + 1, v => .undefined :: setIndex [] i v
  | _ :: xs, 0, v => v :: xs
  | x :: xs, i + 1, v => x :: setIndex xs i v

/-- Value of a run of decimal digits, most significant first. -/
def digitsValue : List Char → Nat → Option Nat
  | [], acc => some acc
  | c :: cs, acc =>
    if '0' ≤ c ∧ c ≤ '9' then digitsValue cs (acc * 10 + (c.toNat - '0'.toNat)) else none

/-- The array index a property name denotes, if it is a canonical numeric
string (`"0"`, `"7"`, `"12"`; not `""`, `"01"`, `"length"`). -/
def arrayIndex (s : String) : Option Nat :=
  match s.data with
  | [] => none
  | ['0'] => some 0
  | '0' :: _ => none
  | cs => digitsValue cs 0

/-- The property key a step denotes on a mapping. -/
def Step.toKey : Step → String
  | .key s => s
  | .idx i => toString i

/-- The builtin `_.isInteger` applied to a path step: true for an index, false
for a field name (a string is never an integer). -/
def Step.isInteger : Step → Bool
  | .key _ => false
  | .idx _ => true

/-- Element `i` of an array or code unit `i` of a string. -/
def charAt (s : String) (i : Nat) : JSVal :=
  match s.data.get? i with
  | some c => .str (String.singleton c)
  | none => .undefined

/-- Property read `result[field]` (own properties). -/
def getField : JSVal → Step → JSVal
  | .obj fs, f => lookupKey f.toKey fs
  | .arr xs, .idx i => xs.getD i .undefined
  | .arr xs, .key s =>
    match arrayIndex s with
    | some i => xs.getD i .undefined
    | none => if s = "length" then .num xs.length else .undefined
  | .str s, .idx i => charAt s i
  | .str s, .key k =>
    match arrayIndex k with
    | some i => charAt s i
    | none => if k = "length" then .num s.length else .undefined
  | _, _ => .undefined

/-! ## The three helpers of `src/index.js` -/

/-- Source line 3:
`fields.reduce((result, field) => result && result[field] ? result[field] : null, obj)`. -/
def getProperty (obj : JSVal) (fields : List Step) : JSVal :=
  fields.foldl
    (fun result field =>
      if truthy result && truthy (getField result field) then getField result field
      else JSVal.null)
    obj

/-- Assignment `result[field] = value`.  On a primitive it raises (strict
mode). -/
def assign : JSVal → Step → JSVal → Except Fault JSVal
  | .obj fs, f, v => .ok (.obj (setKey f.toKey v fs))
  | .arr xs, .idx i, v => .ok (.arr (setIndex xs i v))
  | .arr xs, .key s, v =>
    match arrayIndex s with
    | some i => .ok (.arr (setIndex xs i v))
    | none => .error .unsupported
  | _, _, _ => .error .typeError

/-- Source lines 5-12.  The reducer visits the steps in order; `result` is the
container reached so far.  At the last step it assigns `value`; before that it
creates a missing child, an array when the next step is an integer and a
mapping otherwise, and moves into the child.  The tree returned is the root
after the mutation. -/
def setProperty (result : JSVal) : List Step → JSVal → Except Fault JSVal
  | [], _ => .ok result
  | [field], value => assign result field value
  | field :: next :: rest, value =>
    if truthy (getField result field) then do
      let child ← setProperty (getField result field) (next :: rest) value
      assign result field child
    else do
      let created ← assign result field (if next.isInteger then JSVal.arr [] else JSVal.obj [])
      let child ← setProperty (getField created field) (next :: rest) value
      assign created field child

/-- Source lines 14-40, the `forEach` loop from the current segment on:
`path` is the prefix accumulated so far and the list argument the segments
still to visit.  When the value at `path ++ [field]` is an array and `field`
is not the last segment, every element is expanded against the remaining
segments and the loop stops; otherwise the segment joins the prefix. -/
def getPathsFrom (obj : JSVal) (path : List Step) : List String → List (List Step)
  | [] => [path]
  | field :: rest =>
    let nextPath := path ++ [Step.key field]
    match getProperty obj nextPath, rest with
    | .arr value, _ :: _ =>
      (List.range value.length).flatMap fun i =>
        (getPathsFrom (value.getD i .undefined) [] rest).map fun subPath =>
          nextPath ++ Step.idx i :: subPath
    | _, _ => getPathsFrom obj nextPath rest

/-- Source lines 14-40: `getPaths(obj, fields)`. -/
def getPaths (obj : JSVal) (fields : List String) : List (List Step) :=
  getPathsFrom obj [] fields

/-! ## The engine -/

/-- The builtin `String.prototype.split('.')` on the code units of a string:
the pieces between the dots, in order (never an empty list). -/
def splitDot : List Char → List String
  | [] => [""]
  | c :: cs =>
    if c = '.' then "" :: splitDot cs
    else
      match splitDot cs with
      | [] => [String.singleton c]
      | w :: ws => String.mk (c :: w.data) :: ws

/-- The expression `field.split('.')`. -/
def split (field : String) : List String :=
  splitDot field.data

/-- The expression `message || fallback` for an optional message: the fallback
is taken when the message is omitted or is the empty string. -/
def orElse (message : Option String) (fallback : String) : String :=
  match message with
  | some m => if m = "" then fallback else m
  | none => fallback

/-- The builtin `_.isEmpty`: no own keys for a mapping, zero length for an
array or a string, and true for every other value. -/
def isEmpty : JSVal → Bool
  | .obj fs => fs.isEmpty
  | .arr xs => xs.isEmpty
  | .str s => decide (s = "")
  | _ => true

/-- The builtin `_.keys`: own keys of a mapping, index strings of an array or
a string, nothing for the other values. -/
def keys : JSVal → List String
  | .obj fs => fs.map Prod.fst
  | .arr xs => (List.range xs.length).map toString
  | .str s => (List.range s.length).map toString
  | _ => []

/-- The builtin `_.isInteger`: a finite number without fractional part. -/
def isInteger : JSVal → Bool
  | .num x => x.isInt
  | _ => false

/-- The engine (source lines 42-46): the subject tree and the error tree. -/
structure Validation where
  values : JSVal
  errors : JSVal

namespace Validation

/-- The constructor (source lines 43-46): the error tree starts as `{}`. -/
def create (values : JSVal) : Validation :=
  { values := values, errors := JSVal.obj [] }

/-- Source lines 48-50. -/
def getErrors (self : Validation) : JSVal :=
  self.errors

/-- Body of the `paths.forEach` callback of `validation` (source lines
60-67) for one concrete path. -/
def visit (message : Option String) (validate : JSVal → Bool)
    (againstNullOrUndefined : Bool) (self : Validation) (path : List Step) :
    Except Fault Validation :=
  let property := getProperty self.values path
  if againstNullOrUndefined || truthy property then
    if !validate property then do
      let errors ← setProperty self.errors path (JSVal.str (orElse message "property is invalid"))
      pure { self with errors := errors }
    else pure self
  else pure self

/-- Source lines 56-70: the generic rule. -/
def validation (self : Validation) (field : String) (message : Option String)
    (validate : JSVal → Bool) (againstNullOrUndefined : Bool) : Except Fault Validation :=
  let props := split field
  let paths := getPaths self.values props
  paths.foldlM (visit message validate againstNullOrUndefined) self

/-- Source lines 76-78. -/
def validInteger (self : Validation) (field : String) (message : Option String) :
    Except Fault Validation :=
  self.validation field (some (orElse message "invalid integer")) isInteger false

/-- Source lines 91-93. -/
def notEmptyArray (self : Validation) (field : String) (message : Option String) :
    Except Fault Validation :=
  self.validation field (some (orElse message "not array or empty array"))
    (fun value => match value with
      | .arr xs => decide (xs.length > 0)
      | _ => false)
    false

/-- Source lines 84-89. -/
def containsOnly (self : Validation) (fieldList : List String) (message : Option String) :
    Except Fault Validation :=
  if !(keys self.values).all (fun key => fieldList.contains key) then do
    let errors ← assign self.errors (Step.key "body")
      (JSVal.str (orElse message ("body should only contain " ++ ", ".intercalate fieldList)))
    pure { self with errors := errors }
  else pure self

/-- Source lines 95-103 (the JavaScript method `require`). -/
def require (self : Validation) (field : String) (message : Option String) :
    Except Fault Validation :=
  if field = "/" && isEmpty self.values then do
    let errors ← assign self.errors (Step.key "body")
      (JSVal.str (orElse message "body is required but missing"))
    pure { self with errors := errors }
  else if field = "/" then pure self
  else
    self.validation field (some (orElse message "property is required but missing"))
      (fun value => truthy value) true

end Validation

/-! ## Auxiliary notions for the proofs -/

/-- Two concrete paths part at an array: they agree up to some prefix and
continue with two different indices. -/
inductive Diverge : List Step → List Step → Prop where
  | here (a b : Nat) (p q : List Step) (h : a ≠ b) :
    Diverge (Step.idx a :: p) (Step.idx b :: q)
  | step (k : Step) (p q : List Step) (h : Diverge p q) : Diverge (k :: p) (k :: q)

/-- The field names of a concrete path, its index steps erased. -/
def fieldNames : List Step → List String
  | [] => []
  | .key s :: rest => s :: fieldNames rest
  | .idx _ :: rest => fieldNames rest

/-- One rule call of a chain.  `validEmail` and `maxLength` are calls of the
generic rule `validation` with their own predicate and a non-empty default
message (source lines 72-82), so they are chain elements of the first kind. -/
inductive Call where
  | validation (field : String) (message : Option String) (validate : JSVal → Bool)
      (againstNullOrUndefined : Bool) : Call
  | require (field : String) (message : Option String) : Call
  | validInteger (field : String) (message : Option String) : Call
  | notEmptyArray (field : String) (message : Option String) : Call
  | containsOnly (fieldList : List String) (message : Option String) : Call

/-- The engine after the call, or what the call raised. -/
def Call.run : Call → Validation → Except Fault Validation
  | .validation field message validate against, self =>
    self.validation field message validate against
  | .require field message, self => self.require field message
  | .validInteger field message, self => self.validInteger field message
  | .notEmptyArray field message, self => self.notEmptyArray field message
  | .containsOnly fieldList message, self => self.containsOnly fieldList message

/-- A fluent chain `engine.c1(..).c2(..)...`: the calls run in order, and the
first one that raises ends the chain. -/
def runChain (calls : List Call) (self : Validation) : Except Fault Validation :=
  calls.foldlM (fun engine call => call.run engine) self

/-- The array indices of a concrete path, its field names erased. -/
def indexSteps : List Step → List Nat
  | [] => []
  | .key _ :: rest => indexSteps rest
  | .idx i :: rest => i :: indexSteps rest

/-- The first concrete path comes before the second: they agree up to some
point and continue with a smaller and a larger index. -/
inductive Before : List Step → List Step → Prop where
  | here (a b : Nat) (p q : List Step) (h : a < b) :
    Before (Step.idx a :: p) (Step.idx b :: q)
  | step (k : Step) (p q : List Step) (h : Before p q) : Before (k :: p) (k :: q)

/-! ## The two rules with a builtin conversion

`validEmail` hands its value to `RegExp.prototype.test`, which converts it to a
string, and `maxLength` compares `value.length` with `<=`, which converts it to
a number.  The conversions of the JavaScript runtime are not part of the
repository: where they are not a fixed table they are parameters of the
model. -/

/-- The class `[A-Z]` under the flag `i`: the ASCII letters of both cases. -/
def isLetter (c : Char) : Bool :=
  (decide ('a' ≤ c) && decide (c ≤ 'z')) || (decide ('A' ≤ c) && decide (c ≤ 'Z'))

/-- The class `[0-9]`. -/
def isDigit (c : Char) : Bool :=
  decide ('0' ≤ c) && decide (c ≤ '9')

/-- The class `[A-Z0-9._%+-]` under the flag `i`. -/
def localClass (c : Char) : Bool :=
  isLetter c || isDigit c || c == '.' || c == '_' || c == '%' || c == '+' || c == '-'

/-- The class `[A-Z0-9.-]` under the flag `i`. -/
def domainClass (c : Char) : Bool :=
  isLetter c || isDigit c || c == '.' || c == '-'

/-- One piece of a pattern: a character class with a repetition range (`most`
is `none` for an unbounded repetition). -/
structure Piece where
  accepts : Char → Bool
  least : Nat
  most : Option Nat

/-- The repetition range of the piece admits a run of `n` code units. -/
def Piece.admits (p : Piece) (n : Nat) : Bool :=
  decide (p.least ≤ n) &&
    match p.most with
    | some m => decide (n ≤ m)
    | none => true

/-- Anchored match `^p1 p2 ... pn$`: the input splits into consecutive runs,
one per piece, each within the repetition range of its piece and made of code
units of its class. -/
def matchPieces : List Piece → List Char → Bool
  | [], s => s.isEmpty
  | p :: ps, s =>
    (List.range (s.length + 1)).any fun n =>
      p.admits n && (s.take n).all p.accepts && matchPieces ps (s.drop n)

/-- The pattern `/^[A-Z0-9._%+-]+@[A-Z0-9.-]+\.[A-Z]{2,4}$/i` of source line
73. -/
def emailPattern : List Piece :=
  [ { accepts := localClass, least := 1, most := none },
    { accepts := fun c => c == '@', least := 1, most := some 1 },
    { accepts := domainClass, least := 1, most := none },
    { accepts := fun c => c == '.', least := 1, most := some 1 },
    { accepts := isLetter, least := 2, most := some 4 } ]

/-- The builtin `ToString`; `toText` is the conversion of the runtime for
finite numbers, mappings and arrays. -/
def toStringJS (toText : JSVal → String) : JSVal → String
  | .str s => s
  | .undefined => "undefined"
  | .null => "null"
  | .bool true => "true"
  | .bool false => "false"
  | .nan => "NaN"
  | .inf false => "Infinity"
  | .inf true => "-Infinity"
  | v => toText v

/-- The builtin `ToNumber`; `coerce` is the conversion of the runtime for
strings, mappings and arrays. -/
def toNumber (coerce : JSVal → JSVal) : JSVal → JSVal
  | .undefined => .nan
  | .null => .num 0
  | .bool true => .num 1
  | .bool false => .num 0
  | .num x => .num x
  | .nan => .nan
  | .inf negative => .inf negative
  | v => coerce v

/-- The comparison `x <= limit` of a number `x` with an integer limit; it is
false for `NaN`. -/
def numberLE : JSVal → Int → Bool
  | .num x, limit => decide (x ≤ (limit : ℚ))
  | .inf negative, _ => negative
  | _, _ => false

/-- The expression `x <= limit` for an integer limit: the left operand is
converted to a number first. -/
def lessEq (coerce : JSVal → JSVal) (x : JSVal) (limit : Int) : Bool :=
  numberLE (toNumber coerce x) limit

/-- Source lines 72-74. -/
def Validation.validEmail (toText : JSVal → String) (self : Validation) (field : String)
    (message : Option String) : Except Fault Validation :=
  self.validation field (some (orElse message "invalid email"))
    (fun value => matchPieces emailPattern (toStringJS toText value).data) false

/-- Source lines 80-82. -/
def Validation.maxLength (coerce : JSVal → JSVal) (self : Validation) (field : String)
    (maxLength : Int) (message : Option String) : Except Fault Validation :=
  self.validation field (some (orElse message "max length exceeded"))
    (fun value => lessEq coerce (getField value (Step.key "length")) maxLength) false

/-- The form the specification gives for an accepted address: `local`, `@`,
`domain`, `.`, `tld`, with one or more code units of the local class, one or
more of the domain class, and two to four ASCII letters up to the end. -/
def EmailForm (s : List Char) : Prop :=
  ∃ loc dom tld : List Char, s = loc ++ '@' :: (dom ++ '.' :: tld) ∧
    loc ≠ [] ∧ (∀ c ∈ loc, localClass c = true) ∧
    dom ≠ [] ∧ (∀ c ∈ dom, domainClass c = true) ∧
    2 ≤ tld.length ∧ tld.length ≤ 4 ∧ ∀ c ∈ tld, isLetter c = true

/-! ## Lemmas on mappings and arrays -/

theorem getProperty_nil (v : JSVal) : getProperty v [] = v := rfl

theorem getProperty_cons (v : JSVal) (k : Step) (p : List Step) :
    getProperty v (k :: p) =
      getProperty (if truthy v && truthy (getField v k) then getField v k else JSVal.null) p := rfl

theorem getProperty_append (v : JSVal) (p q : List Step) :
    getProperty v (p ++ q) = getProperty (getProperty v p) q := by
  simp [getProperty, List.foldl_append]

theorem getProperty_null (p : List Step) : getProperty JSVal.null p = JSVal.null := by
  induction p with
  | nil => rfl
  | cons k p ih => simpa [getProperty_cons, truthy] using ih

theorem getProperty_of_falsy {v : JSVal} (h : truthy v = false) {p : List Step} (hp : p ≠ []) :
    getProperty v p = JSVal.null := by
  cases p with
  | nil => exact absurd rfl hp
  | cons k p => simp [getProperty_cons, h, getProperty_null]

theorem Diverge.symm {p q : List Step} (h : Diverge p q) : Diverge q p := by
  induction h with
  | here a b p q h => exact Diverge.here b a q p (Ne.symm h)
  | step k p q _ ih => exact Diverge.step k q p ih

theorem Diverge.ne {p q : List Step} (h : Diverge p q) : p ≠ q := by
  induction h with
  | here a b p q h =>
    intro he
    injection he with h1 _
    injection h1 with h2
    exact h h2
  | step k p q _ ih =>
    intro he
    injection he with _ h2
    exact ih h2

theorem getPathsFrom_nil (obj : JSVal) (path : List Step) : getPathsFrom obj path [] = [path] := by
  simp [getPathsFrom]

theorem getPathsFrom_fan {obj : JSVal} {path : List Step} {field : String} {rest : List String}
    {value : List JSVal} (hv : getProperty obj (path ++ [Step.key field]) = JSVal.arr value)
    (hr : rest ≠ []) :
    getPathsFrom obj path (field :: rest) =
      (List.range value.length).flatMap fun i =>
        (getPathsFrom (value.getD i JSVal.undefined) [] rest).map fun subPath =>
          (path ++ [Step.key field]) ++ Step.idx i :: subPath := by
  cases rest with
  | nil => exact absurd rfl hr
  | cons r rs => simp only [getPathsFrom, hv]

theorem getPathsFrom_walk {obj : JSVal} {path : List Step} {field : String} {rest : List String}
    (h : isArray (getProperty obj (path ++ [Step.key field])) = false ∨ rest = []) :
    getPathsFrom obj path (field :: rest) = getPathsFrom obj (path ++ [Step.key field]) rest := by
  rcases h with h | h
  · cases hv : getProperty obj (path ++ [Step.key field]) <;>
      first
      | (rw [hv] at h; simp [isArray] at h; done)
      | (cases rest <;> simp only [getPathsFrom, hv])
  · subst h
    cases hv : getProperty obj (path ++ [Step.key field]) <;> simp only [getPathsFrom, hv]

theorem getPathsFrom_cases (obj : JSVal) (path : List Step) (field : String) (rest : List String) :
    (∃ value, getProperty obj (path ++ [Step.key field]) = JSVal.arr value ∧ rest ≠ []) ∨
    (isArray (getProperty obj (path ++ [Step.key field])) = false ∨ rest = []) := by
  by_cases hr : rest = []
  · exact Or.inr (Or.inr hr)
  · cases hv : getProperty obj (path ++ [Step.key field]) <;> simp [isArray, hr]

theorem mem_getPathsFrom_fan {obj : JSVal} {path : List Step} {field : String}
    {rest : List String} {value : List JSVal}
    (hv : getProperty obj (path ++ [Step.key field]) = JSVal.arr value) (hr : rest ≠ [])
    {p : List Step} (hp : p ∈ getPathsFrom obj path (field :: rest)) :
    ∃ i sub, i < value.length ∧ sub ∈ getPathsFrom (value.getD i JSVal.undefined) [] rest ∧
      p = (path ++ [Step.key field]) ++ Step.idx i :: sub := by
  rw [getPathsFrom_fan hv hr] at hp
  simp only [List.mem_flatMap, List.mem_range, List.mem_map] at hp
  obtain ⟨i, hi, sub, hsub, rfl⟩ := hp
  exact ⟨i, sub, hi, hsub, rfl⟩

theorem getPathsFrom_shape (rest : List String) :
    ∀ (obj : JSVal) (path p : List Step), p ∈ getPathsFrom obj path rest →
      ∃ s, p = path ++ s ∧ fieldNames s = rest ∧
        (∀ f r, rest = f :: r → ∃ s', s = Step.key f :: s') := by
  induction rest with
  | nil =>
    intro obj path p hp
    rw [getPathsFrom_nil] at hp
    refine ⟨[], by simpa using hp, rfl, fun f r h => by cases h⟩
  | cons field rest ih =>
    intro obj path p hp
    rcases getPathsFrom_cases obj path field rest with ⟨value, hv, hr⟩ | hw
    · obtain ⟨i, sub, _, hsub, rfl⟩ := mem_getPathsFrom_fan hv hr hp
      obtain ⟨s, hs, hn, _⟩ := ih _ _ _ hsub
      simp only [List.nil_append] at hs
      subst hs
      refine ⟨Step.key field :: Step.idx i :: sub, by simp, by simp [fieldNames, hn], ?_⟩
      intro f r h
      injection h with h1 _
      subst h1
      exact ⟨_, rfl⟩
    · rw [getPathsFrom_walk hw] at hp
      obtain ⟨s, hs, hn, _⟩ := ih _ _ _ hp
      refine ⟨Step.key field :: s, by simp [hs], by simp [fieldNames, hn], ?_⟩
      intro f r h
      injection h with h1 _
      subst h1
      exact ⟨_, rfl⟩

theorem getPaths_fieldNames {obj : JSVal} {fields : List String} {p : List Step}
    (hp : p ∈ getPaths obj fields) : fieldNames p = fields := by
  obtain ⟨s, hs, hn, _⟩ := getPathsFrom_shape fields obj [] p hp
  simp only [List.nil_append] at hs
  rw [hs]; exact hn

theorem getPathsFrom_single (rest : List String) :
    ∀ (obj : JSVal) (path : List Step),
      (∀ n, 0 < n → n < rest.length →
        isArray (getProperty obj (path ++ (rest.take n).map Step.key)) = false) →
      getPathsFrom obj path rest = [path ++ rest.map Step.key] := by
  induction rest with
  | nil => intro obj path _; simp [getPathsFrom_nil]
  | cons field rest ih =>
    intro obj path h
    have hw : isArray (getProperty obj (path ++ [Step.key field])) = false ∨ rest = [] := by
      by_cases hr : rest = []
      · exact Or.inr hr
      · left
        have := h 1 (by omega) (by
          cases rest with
          | nil => exact absurd rfl hr
          | cons r rs => simp)
        simpa using this
    rw [getPathsFrom_walk hw, ih obj (path ++ [Step.key field])]
    · simp
    · intro n hn hlt
      have := h (n + 1) (by omega) (by simp; omega)
      simpa using this

theorem getPathsFrom_first_array (rest : List String) :
    ∀ (obj : JSVal) (path : List Step) (k : Nat) (value : List JSVal),
      k + 1 < rest.length →
      getProperty obj (path ++ (rest.take (k + 1)).map Step.key) = JSVal.arr value →
      (∀ j, j < k →
        isArray (getProperty obj (path ++ (rest.take (j + 1)).map Step.key)) = false) →
      getPathsFrom obj path rest =
        (List.range value.length).flatMap fun i =>
          (getPathsFrom (value.getD i JSVal.undefined) [] (rest.drop (k + 1))).map fun subPath =>
            (path ++ (rest.take (k + 1)).map Step.key) ++ Step.idx i :: subPath := by
  induction rest with
  | nil => intro obj path k value hk; simp at hk
  | cons field rest ih =>
    intro obj path k value hk hv hmin
    cases k with
    | zero =>
      have hr : rest ≠ [] := by
        intro h; subst h; simp at hk
      simp only [Nat.zero_add, List.take_succ_cons, List.take_zero, List.map_cons, List.map_nil]
        at hv
      rw [getPathsFrom_fan hv hr]
      simp
    | succ k' =>
      have h0 := hmin 0 (by omega)
      simp only [Nat.zero_add, List.take_succ_cons, List.take_zero, List.map_cons, List.map_nil]
        at h0
      rw [getPathsFrom_walk (Or.inl h0)]
      have hk' : k' + 1 < rest.length := by simpa using hk
      have hv' : getProperty obj ((path ++ [Step.key field]) ++ (rest.take (k' + 1)).map Step.key)
          = JSVal.arr value := by
        simpa using hv
      rw [ih obj (path ++ [Step.key field]) k' value hk' hv']
      · simp
      · intro j hj
        have := hmin (j + 1) (by omega)
        simpa using this

/-! ## One rule call -/

theorem orElse_some {m : String} (h : m ≠ "") (fallback : String) :
    orElse (some m) fallback = m := by
  simp [orElse, h]

/-- C3. Fan-out characterisation of `getPaths`: when `k` is the smallest index
below the last one at which the segments `s_0..s_k` resolve to an array, the
expansion is the concatenation, over the indices `i` of that array in
ascending order, of the expansions of the remaining segments against element
`i`, each prefixed by `s_0..s_k, i`. -/
theorem getPaths_first_array (tree : JSVal) (segments : List String) (k : Nat)
    (value : List JSVal) (hk : k + 1 < segments.length)
    (harr : getProperty tree ((segments.take (k + 1)).map Step.key) = JSVal.arr value)
    (hmin : ∀ j, j < k →
      isArray (getProperty tree ((segments.take (j + 1)).map Step.key)) = false) :
    getPaths tree segments =
      (List.range value.length).flatMap fun i =>
        (getPaths (value.getD i JSVal.undefined) (segments.drop (k + 1))).map fun subPath =>
          (segments.take (k + 1)).map Step.key ++ Step.idx i :: subPath := by
  have h := getPathsFrom_first_array segments tree [] k value hk (by simpa using harr)
    (by simpa using hmin)
  simpa [getPaths] using h

/-- Instance of C3: `a.b.c` where `a` is a mapping and `a.b` a two-element
array, so that the fan-out point is the second segment. -/
theorem getPaths_first_array_witness :
    getPaths (JSVal.obj [("a", JSVal.obj [("b", JSVal.arr [JSVal.obj [], JSVal.null])])])
        ["a", "b", "c"] =
      (List.range [JSVal.obj [], JSVal.null].length).flatMap fun i =>
        (getPaths ([JSVal.obj [], JSVal.null].getD i JSVal.undefined)
            (["a", "b", "c"].drop (1 + 1))).map fun subPath =>
          (["a", "b", "c"].take (1 + 1)).map Step.key ++ Step.idx i :: subPath :=
  getPaths_first_array
    (JSVal.obj [("a", JSVal.obj [("b", JSVal.arr [JSVal.obj [], JSVal.null])])])
    ["a", "b", "c"] 1 [JSVal.obj [], JSVal.null] (by decide) rfl
    (fun j hj => by
      have h0 : j = 0 := by omega
      subst h0
      rfl)

/-- C4. When no proper non-empty prefix of the segments resolves to an array,
`getPaths` returns exactly one concrete path, the literal segment sequence;
absent intermediate values and an array at the full path make no
difference. -/
theorem getPaths_without_arrays (tree : JSVal) (segments : List String)
    (h : ∀ n, 0 < n → n < segments.length →
      isArray (getProperty tree ((segments.take n).map Step.key)) = false) :
    getPaths tree segments = [segments.map Step.key] := by
  have := getPathsFrom_single segments tree [] (by simpa using h)
  simpa [getPaths] using this

/-- Instance of C4: `person.tags` where `person` is absent from the tree. -/
theorem getPaths_without_arrays_witness :
    getPaths (JSVal.obj [("other", JSVal.arr [])]) ["person", "tags"] =
      [["person", "tags"].map Step.key] :=
  getPaths_without_arrays (JSVal.obj [("other", JSVal.arr [])]) ["person", "tags"]
    (fun n h0 h2 => by
      have h1 : n = 1 := by
        simp only [List.length_cons, List.length_nil] at h2
        omega
      subst h1
      rfl)

theorem require_eq_validation (self : Validation) {field : String} (h : field ≠ "/")
    (message : Option String) :
    self.require field message =
      self.validation field (some (orElse message "property is required but missing"))
        (fun value => truthy value) true := by
  simp [Validation.require, h]

/-- The array test of the repository (test lines 103-131): the error tree has
a hole at `persons[0]` and the message at both hobbies of `persons[1]`. -/
theorem require_nested_arrays_test :
    Except.map Validation.getErrors
      ((Validation.create (JSVal.obj [("persons", JSVal.arr [
        JSVal.obj [("firstName", JSVal.str "John"), ("lastName", JSVal.str "Smith"),
          ("hobbies", JSVal.arr [
            JSVal.obj [("type", JSVal.str "sport"), ("value", JSVal.str "soccer")],
            JSVal.obj [("type", JSVal.str "sport"), ("value", JSVal.str "basketball")]])],
        JSVal.obj [("firstName", JSVal.str "Alex"), ("lastName", JSVal.str "Gordon"),
          ("hobbies", JSVal.arr [
            JSVal.obj [("value", JSVal.str "chess")],
            JSVal.obj [("value", JSVal.str "basketball")]])]])])).require
        "persons.hobbies.type" (some "type is missing")) =
      Except.ok (JSVal.obj [("persons", JSVal.arr [JSVal.undefined,
        JSVal.obj [("hobbies", JSVal.arr [
          JSVal.obj [("type", JSVal.str "type is missing")],
          JSVal.obj [("type", JSVal.str "type is missing")]])]])]) := by
  rfl

/-- C2 fails on the code.  On the tree `{}` the chain
`require('a').require('a.b.c')` raises: the first call stores its message, a
string, at `errors.a`, and the second call walks into that string and assigns
to a property of it. -/
theorem chain_raises :
    runChain [Call.require "a" none, Call.require "a.b.c" none]
        (Validation.create (JSVal.obj [])) =
      Except.error Fault.typeError := by
  rfl

theorem sum_map_range_const (n c : Nat) (f : Nat → Nat) (h : ∀ i, i < n → f i = c) :
    ((List.range n).map f).sum = n * c := by
  induction n with
  | zero => simp
  | succ m ih =>
    rw [List.range_succ, List.map_append, List.sum_append, ih (fun i hi => h i (by omega))]
    simp [h m (by omega), Nat.succ_mul]

/-- C11 as stated fails: on `{ a: [{ b: [null, null] }, { b: [null] }] }` and
`a.b.c` the array at `a` has two elements, the remaining segments resolve to
two paths against the first element and to one against the second, and
`getPaths` returns three paths, which is neither `2 * 2` nor `2 * 1`. -/
theorem getPaths_count_counterexample :
    getProperty (JSVal.obj [("a", JSVal.arr [JSVal.obj [("b", JSVal.arr [JSVal.null, JSVal.null])],
        JSVal.obj [("b", JSVal.arr [JSVal.null])]])]) [Step.key "a"] =
      JSVal.arr [JSVal.obj [("b", JSVal.arr [JSVal.null, JSVal.null])],
        JSVal.obj [("b", JSVal.arr [JSVal.null])]] ∧
    (getPaths (JSVal.obj [("a", JSVal.arr [JSVal.obj [("b", JSVal.arr [JSVal.null, JSVal.null])],
        JSVal.obj [("b", JSVal.arr [JSVal.null])]])]) ["a", "b", "c"]).length = 3 ∧
    (getPaths (JSVal.obj [("b", JSVal.arr [JSVal.null, JSVal.null])]) ["b", "c"]).length = 2 ∧
    (getPaths (JSVal.obj [("b", JSVal.arr [JSVal.null])]) ["b", "c"]).length = 1 ∧
    3 ≠ 2 * 2 ∧ 3 ≠ 2 * 1 := by
  refine ⟨rfl, by decide, by decide, by decide, by decide, by decide⟩

/-- C11, amended: when segment `k`, not the last one, is the first segment
that resolves to an array, of length `n`, the number of paths `getPaths`
returns is the sum, over the `n` elements, of the number of paths the remaining
segments resolve to against that element; it is `n` times that number when the
number is the same for every element; and each path is the segments up to `k`,
the index of an element, and a path of that element. -/
theorem getPaths_count (tree : JSVal) (segments : List String) (k : Nat)
    (value : List JSVal) (hk : k + 1 < segments.length)
    (harr : getProperty tree ((segments.take (k + 1)).map Step.key) = JSVal.arr value)
    (hmin : ∀ j, j < k →
      isArray (getProperty tree ((segments.take (j + 1)).map Step.key)) = false) :
    (getPaths tree segments).length =
        ((List.range value.length).map fun i =>
          (getPaths (value.getD i JSVal.undefined) (segments.drop (k + 1))).length).sum ∧
      (∀ c, (∀ i, i < value.length →
          (getPaths (value.getD i JSVal.undefined) (segments.drop (k + 1))).length = c) →
        (getPaths tree segments).length = value.length * c) ∧
      ∀ p ∈ getPaths tree segments, ∃ i sub, i < value.length ∧
        sub ∈ getPaths (value.getD i JSVal.undefined) (segments.drop (k + 1)) ∧
        p = (segments.take (k + 1)).map Step.key ++ Step.idx i :: sub := by
  have h := getPathsFrom_first_array segments tree [] k value hk (by simpa using harr)
    (by simpa using hmin)
  simp only [List.nil_append] at h
  have hlen : (getPaths tree segments).length =
      ((List.range value.length).map fun i =>
        (getPaths (value.getD i JSVal.undefined) (segments.drop (k + 1))).length).sum := by
    unfold getPaths
    rw [h, List.length_flatMap]
    congr 1
    apply List.map_congr_left
    intro i _
    simp
  refine ⟨hlen, fun c hc => ?_, fun p hp => ?_⟩
  · rw [hlen]
    exact sum_map_range_const _ _ _ hc
  · unfold getPaths at hp
    rw [h] at hp
    simp only [List.mem_flatMap, List.mem_range, List.mem_map] at hp
    obtain ⟨i, hi, sub, hsub, rfl⟩ := hp
    exact ⟨i, sub, hi, hsub, rfl⟩

/-- Instance of the amended C11: `persons.name` over two persons. -/
theorem getPaths_count_witness :
    (getPaths (JSVal.obj [("persons", JSVal.arr [JSVal.obj [], JSVal.null])])
        ["persons", "name"]).length =
        ((List.range [JSVal.obj [], JSVal.null].length).map fun i =>
          (getPaths ([JSVal.obj [], JSVal.null].getD i JSVal.undefined)
            (["persons", "name"].drop (0 + 1))).length).sum ∧
      (∀ c, (∀ i, i < [JSVal.obj [], JSVal.null].length →
          (getPaths ([JSVal.obj [], JSVal.null].getD i JSVal.undefined)
            (["persons", "name"].drop (0 + 1))).length = c) →
        (getPaths (JSVal.obj [("persons", JSVal.arr [JSVal.obj [], JSVal.null])])
          ["persons", "name"]).length = [JSVal.obj [], JSVal.null].length * c) ∧
      ∀ p ∈ getPaths (JSVal.obj [("persons", JSVal.arr [JSVal.obj [], JSVal.null])])
          ["persons", "name"],
        ∃ i sub, i < [JSVal.obj [], JSVal.null].length ∧
          sub ∈ getPaths ([JSVal.obj [], JSVal.null].getD i JSVal.undefined)
            (["persons", "name"].drop (0 + 1)) ∧
          p = (["persons", "name"].take (0 + 1)).map Step.key ++ Step.idx i :: sub :=
  getPaths_count (JSVal.obj [("persons", JSVal.arr [JSVal.obj [], JSVal.null])])
    ["persons", "name"] 0 [JSVal.obj [], JSVal.null] (by decide) rfl
    (fun j hj => absurd hj (Nat.not_lt_zero j))

/-! ## Writes into the empty tree -/

/-- The example of C12: a failure only at element 1 of `persons` leaves a hole
at element 0. -/
theorem setProperty_empty_example :
    setProperty (JSVal.obj []) [Step.key "persons", Step.idx 1, Step.key "name"]
        (JSVal.str "name is missing") =
      Except.ok (JSVal.obj [("persons", JSVal.arr [JSVal.undefined,
        JSVal.obj [("name", JSVal.str "name is missing")]])]) := by
  rfl

/-! ## The body-level rules -/

theorem containsOnly_general (fields : List (String × JSVal)) (allowedFields : List String)
    (message : Option String) :
    (Validation.create (JSVal.obj fields)).containsOnly allowedFields message =
      Except.ok ⟨JSVal.obj fields,
        if (fields.map Prod.fst).all (fun key => allowedFields.contains key) = true then
          JSVal.obj []
        else JSVal.obj [("body", JSVal.str
          (orElse message ("body should only contain " ++ ", ".intercalate allowedFields)))]⟩ := by
  by_cases h : (fields.map Prod.fst).all (fun key => allowedFields.contains key) = true
  · simp only [Validation.containsOnly, Validation.create, keys, h, Bool.not_true, if_true]
    rfl
  · have h' : (fields.map Prod.fst).all (fun key => allowedFields.contains key) = false := by
      simpa using h
    simp only [Validation.containsOnly, Validation.create, keys, h', Bool.not_false, if_true]
    rfl

/-- C13. For a mapping and a list of allowed fields, `containsOnly` on a fresh
engine leaves the error tree empty when every top-level key is allowed, and
otherwise leaves exactly `{ body: msg }`, where `msg` is `'body should only
contain '` followed by the allowed fields joined with `', '`, or the custom
non-empty message.  Only the top-level keys of the tree enter the result. -/
theorem containsOnly_body (fields : List (String × JSVal)) (allowedFields : List String) :
    (Validation.create (JSVal.obj fields)).containsOnly allowedFields none =
        Except.ok ⟨JSVal.obj fields,
          if ∀ key ∈ fields.map Prod.fst, key ∈ allowedFields then JSVal.obj []
          else JSVal.obj [("body", JSVal.str
            ("body should only contain " ++ ", ".intercalate allowedFields))]⟩ ∧
      ∀ m : String, m ≠ "" →
        (Validation.create (JSVal.obj fields)).containsOnly allowedFields (some m) =
          Except.ok ⟨JSVal.obj fields,
            if ∀ key ∈ fields.map Prod.fst, key ∈ allowedFields then JSVal.obj []
            else JSVal.obj [("body", JSVal.str m)]⟩ := by
  have hall : ((fields.map Prod.fst).all (fun key => allowedFields.contains key) = true) ↔
      ∀ key ∈ fields.map Prod.fst, key ∈ allowedFields := by
    simp [List.all_eq_true]
  refine ⟨?_, fun m hm => ?_⟩
  · rw [containsOnly_general]
    by_cases h : ∀ key ∈ fields.map Prod.fst, key ∈ allowedFields
    · rw [if_pos (hall.mpr h), if_pos h]
    · rw [if_neg (fun hc => h (hall.mp hc)), if_neg h]
      rfl
  · rw [containsOnly_general, orElse_some hm]
    by_cases h : ∀ key ∈ fields.map Prod.fst, key ∈ allowedFields
    · rw [if_pos (hall.mpr h), if_pos h]
    · rw [if_neg (fun hc => h (hall.mp hc)), if_neg h]

/-- Instance of C13: the keys of the repository's test (test lines 53-67),
where the key `address` is not allowed. -/
theorem containsOnly_body_witness :
    (Validation.create (JSVal.obj [("firstName", JSVal.str "John"),
        ("address", JSVal.str "123 Test St")])).containsOnly ["firstName", "email"] none =
        Except.ok ⟨JSVal.obj [("firstName", JSVal.str "John"),
            ("address", JSVal.str "123 Test St")],
          if ∀ key ∈ [("firstName", JSVal.str "John"),
              ("address", JSVal.str "123 Test St")].map Prod.fst, key ∈ ["firstName", "email"]
          then JSVal.obj []
          else JSVal.obj [("body", JSVal.str
            ("body should only contain " ++ ", ".intercalate ["firstName", "email"]))]⟩ ∧
      ∀ m : String, m ≠ "" →
        (Validation.create (JSVal.obj [("firstName", JSVal.str "John"),
          ("address", JSVal.str "123 Test St")])).containsOnly ["firstName", "email"] (some m) =
          Except.ok ⟨JSVal.obj [("firstName", JSVal.str "John"),
              ("address", JSVal.str "123 Test St")],
            if ∀ key ∈ [("firstName", JSVal.str "John"),
                ("address", JSVal.str "123 Test St")].map Prod.fst, key ∈ ["firstName", "email"]
            then JSVal.obj []
            else JSVal.obj [("body", JSVal.str m)]⟩ :=
  containsOnly_body [("firstName", JSVal.str "John"), ("address", JSVal.str "123 Test St")]
    ["firstName", "email"]

/-- The test of the repository for `containsOnly` (test lines 53-67). -/
theorem containsOnly_test :
    (Validation.create (JSVal.obj [("firstName", JSVal.str "John"),
        ("email", JSVal.str "john@test.com")])).containsOnly ["firstName", "email"] none =
      Except.ok ⟨JSVal.obj [("firstName", JSVal.str "John"),
        ("email", JSVal.str "john@test.com")], JSVal.obj []⟩ ∧
    (Validation.create (JSVal.obj [("firstName", JSVal.str "John"),
        ("email", JSVal.str "john@test.com"), ("address", JSVal.str "123 Test St")])).containsOnly
        ["firstName", "email"] none =
      Except.ok ⟨JSVal.obj [("firstName", JSVal.str "John"),
          ("email", JSVal.str "john@test.com"), ("address", JSVal.str "123 Test St")],
        JSVal.obj [("body", JSVal.str "body should only contain firstName, email")]⟩ :=
  ⟨rfl, rfl⟩

theorem require_body_general (values : JSVal) (message : Option String) :
    (Validation.create values).require "/" message =
      Except.ok ⟨values,
        if isEmpty values = true then
          JSVal.obj [("body", JSVal.str (orElse message "body is required but missing"))]
        else JSVal.obj []⟩ := by
  by_cases h : isEmpty values = true
  · simp only [Validation.require, Validation.create, h, decide_True, Bool.and_self, if_true]
    rfl
  · simp only [Validation.require, Validation.create, h, decide_True, Bool.true_and, if_true]
    rfl

/-- C14. Whole-body require on a fresh engine: on the empty mapping `{}` the
error tree after `require('/', m)` is exactly `{ body: m }`, with `m`
defaulting to `'body is required but missing'`; on a non-empty mapping it is
empty, whatever the fields hold. -/
theorem require_body (m : String) (hm : m ≠ "") :
    (Validation.create (JSVal.obj [])).require "/" none =
        Except.ok ⟨JSVal.obj [],
          JSVal.obj [("body", JSVal.str "body is required but missing")]⟩ ∧
      (Validation.create (JSVal.obj [])).require "/" (some m) =
        Except.ok ⟨JSVal.obj [], JSVal.obj [("body", JSVal.str m)]⟩ ∧
      ∀ (field : String × JSVal) (fields : List (String × JSVal)) (message : Option String),
        (Validation.create (JSVal.obj (field :: fields))).require "/" message =
          Except.ok ⟨JSVal.obj (field :: fields), JSVal.obj []⟩ := by
  refine ⟨rfl, ?_, fun field fields message => ?_⟩
  · rw [require_body_general, orElse_some hm]
    rfl
  · rw [require_body_general]
    rfl

/-- Instance of C14: the custom message of the repository's test (test lines
96-100). -/
theorem require_body_witness :
    (Validation.create (JSVal.obj [])).require "/" none =
        Except.ok ⟨JSVal.obj [],
          JSVal.obj [("body", JSVal.str "body is required but missing")]⟩ ∧
      (Validation.create (JSVal.obj [])).require "/" (some "body is required") =
        Except.ok ⟨JSVal.obj [], JSVal.obj [("body", JSVal.str "body is required")]⟩ ∧
      ∀ (field : String × JSVal) (fields : List (String × JSVal)) (message : Option String),
        (Validation.create (JSVal.obj (field :: fields))).require "/" message =
          Except.ok ⟨JSVal.obj (field :: fields), JSVal.obj []⟩ :=
  require_body "body is required" (by decide)

/-! ## Round trip and empty fan-out -/

theorem validation_of_no_paths (self : Validation) (field : String) (message : Option String)
    (validate : JSVal → Bool) (against : Bool)
    (h : getPaths self.values (split field) = []) :
    self.validation field message validate against = Except.ok self := by
  simp only [Validation.validation, h, List.foldlM_nil]
  rfl

theorem split_sentinel : split "/" = ["/"] := by
  decide

/-- C20. Empty-array fan-out: when the first segment that resolves to an
array, not the last one, resolves to the empty array, `getPaths` returns the
empty list; and then every path rule on that path, `require` included,
returns and leaves the engine, hence the error tree, as it was. -/
theorem getPaths_empty_array (tree : JSVal) (segments : List String) (k : Nat)
    (hk : k + 1 < segments.length)
    (harr : getProperty tree ((segments.take (k + 1)).map Step.key) = JSVal.arr [])
    (hmin : ∀ j, j < k →
      isArray (getProperty tree ((segments.take (j + 1)).map Step.key)) = false) :
    getPaths tree segments = [] ∧
    ∀ (self : Validation) (field : String) (message : Option String),
      self.values = tree → split field = segments →
      (∀ (validate : JSVal → Bool) (against : Bool),
        self.validation field message validate against = Except.ok self) ∧
      self.require field message = Except.ok self ∧
      self.validInteger field message = Except.ok self ∧
      self.notEmptyArray field message = Except.ok self ∧
      (∀ toText : JSVal → String, self.validEmail toText field message = Except.ok self) ∧
      ∀ (coerce : JSVal → JSVal) (limit : Int),
        self.maxLength coerce field limit message = Except.ok self := by
  have h := getPathsFrom_first_array segments tree [] k [] hk (by simpa using harr)
    (by simpa using hmin)
  have hnil : getPaths tree segments = [] := by
    unfold getPaths
    rw [h]
    simp
  refine ⟨hnil, fun self field message hv hs => ?_⟩
  have hp : getPaths self.values (split field) = [] := by rw [hv, hs]; exact hnil
  have hf : field ≠ "/" := by
    intro hc
    rw [hc, split_sentinel] at hs
    rw [← hs] at hk
    simp at hk
  refine ⟨fun validate against => validation_of_no_paths self field message validate against hp,
    ?_, validation_of_no_paths self field _ _ _ hp, validation_of_no_paths self field _ _ _ hp,
    fun _ => validation_of_no_paths self field _ _ _ hp,
    fun _ _ => validation_of_no_paths self field _ _ _ hp⟩
  rw [require_eq_validation self hf]
  exact validation_of_no_paths self field _ _ _ hp

/-- Instance of C20: the example `persons.name` on `{ persons: [] }`. -/
theorem getPaths_empty_array_witness :
    getPaths (JSVal.obj [("persons", JSVal.arr [])]) ["persons", "name"] = [] ∧
    ∀ (self : Validation) (field : String) (message : Option String),
      self.values = JSVal.obj [("persons", JSVal.arr [])] →
      split field = ["persons", "name"] →
      (∀ (validate : JSVal → Bool) (against : Bool),
        self.validation field message validate against = Except.ok self) ∧
      self.require field message = Except.ok self ∧
      self.validInteger field message = Except.ok self ∧
      self.notEmptyArray field message = Except.ok self ∧
      (∀ toText : JSVal → String, self.validEmail toText field message = Except.ok self) ∧
      ∀ (coerce : JSVal → JSVal) (limit : Int),
        self.maxLength coerce field limit message = Except.ok self :=
  getPaths_empty_array (JSVal.obj [("persons", JSVal.arr [])]) ["persons", "name"] 0
    (by decide) rfl (fun j hj => absurd hj (Nat.not_lt_zero j))

/-- The example of C20 evaluated: `require('persons.name')` on
`{ persons: [] }` reports nothing. -/
theorem require_empty_array_example :
    (Validation.create (JSVal.obj [("persons", JSVal.arr [])])).require "persons.name" none =
      Except.ok ⟨JSVal.obj [("persons", JSVal.arr [])], JSVal.obj []⟩ := by
  rfl

/-! ## Order and provenance of the concrete paths -/

theorem Before.diverge {p q : List Step} (h : Before p q) : Diverge p q := by
  induction h with
  | here a b p q h => exact Diverge.here a b p q (Nat.ne_of_lt h)
  | step k p q _ ih => exact Diverge.step k p q ih

theorem Before.prepend (pre : List Step) {p q : List Step} (h : Before p q) :
    Before (pre ++ p) (pre ++ q) := by
  induction pre with
  | nil => exact h
  | cons k pre ih => exact Before.step k _ _ ih

theorem Before.lex {p q : List Step} (h : Before p q) :
    List.Lex (fun a b : Nat => a < b) (indexSteps p) (indexSteps q) := by
  induction h with
  | here a b p q h => exact List.Lex.rel h
  | step k p q _ ih =>
    cases k with
    | key s => exact ih
    | idx i => exact List.Lex.cons ih

theorem Diverge.not_prefix {p q : List Step} (h : Diverge p q) : ¬ p <+: q := by
  induction h with
  | here a b p q h =>
    intro hp
    rw [List.cons_prefix_cons] at hp
    injection hp.1 with h'
    exact h h'
  | step k p q _ ih =>
    intro hp
    rw [List.cons_prefix_cons] at hp
    exact ih hp.2

theorem getPathsFrom_pairwise (rest : List String) :
    ∀ (obj : JSVal) (path : List Step), List.Pairwise Before (getPathsFrom obj path rest) := by
  induction rest with
  | nil =>
    intro obj path
    rw [getPathsFrom_nil]
    exact List.pairwise_singleton _ _
  | cons field rest ih =>
    intro obj path
    rcases getPathsFrom_cases obj path field rest with ⟨value, hv, hr⟩ | hw
    · rw [getPathsFrom_fan hv hr, List.pairwise_flatMap]
      constructor
      · intro i _
        rw [List.pairwise_map]
        exact (ih (value.getD i JSVal.undefined) []).imp
          (fun hb => Before.prepend _ (Before.step _ _ _ hb))
      · refine (List.pairwise_lt_range value.length).imp ?_
        intro i j hij x hx y hy
        simp only [List.mem_map] at hx hy
        obtain ⟨sx, _, rfl⟩ := hx
        obtain ⟨sy, _, rfl⟩ := hy
        exact Before.prepend _ (Before.here i j sx sy hij)
    · rw [getPathsFrom_walk hw]
      exact ih obj _

/-- C18. The concrete paths returned by `getPaths` are pairwise distinct, none
is a prefix of another, and they come in ascending lexicographic order of their
array indices. -/
theorem getPaths_ordered (tree : JSVal) (segments : List String) :
    List.Pairwise
      (fun p q => p ≠ q ∧ ¬ p <+: q ∧ ¬ q <+: p ∧
        List.Lex (fun a b : Nat => a < b) (indexSteps p) (indexSteps q))
      (getPaths tree segments) := by
  refine (getPathsFrom_pairwise segments tree []).imp ?_
  intro p q hb
  exact ⟨hb.diverge.ne, hb.diverge.not_prefix, hb.diverge.symm.not_prefix, hb.lex⟩

theorem getProperty_of_falsy_root {v : JSVal} {pre : List Step} {xs : List JSVal}
    (h : getProperty v pre = JSVal.arr xs) :
    getProperty (if truthy v = true then v else JSVal.null) pre = JSVal.arr xs := by
  by_cases hv : truthy v = true
  · simpa [hv] using h
  · have hv' : truthy v = false := by simpa using hv
    cases pre with
    | nil =>
      rw [getProperty_nil] at h
      rw [h] at hv'
      simp [truthy] at hv'
    | cons k pre =>
      rw [getProperty_of_falsy hv' (by simp)] at h
      cases h

theorem getPathsFrom_indices (rest : List String) :
    ∀ (obj : JSVal) (path p : List Step), p ∈ getPathsFrom obj path rest →
      ∃ s, p = path ++ s ∧ ∀ (pre : List Step) (i : Nat) (post : List Step),
        s = pre ++ Step.idx i :: post →
        ∃ xs, getProperty obj (path ++ pre) = JSVal.arr xs ∧ i < xs.length := by
  induction rest with
  | nil =>
    intro obj path p hp
    rw [getPathsFrom_nil, List.mem_singleton] at hp
    refine ⟨[], by simp [hp], fun pre i post h => ?_⟩
    cases pre <;> simp at h
  | cons field rest ih =>
    intro obj path p hp
    rcases getPathsFrom_cases obj path field rest with ⟨value, hv, hr⟩ | hw
    · obtain ⟨i0, sub, hi0, hsub, rfl⟩ := mem_getPathsFrom_fan hv hr hp
      obtain ⟨s, hs, hidx⟩ := ih _ _ _ hsub
      simp only [List.nil_append] at hs hidx
      subst hs
      refine ⟨Step.key field :: Step.idx i0 :: sub, by simp, fun pre i post h => ?_⟩
      cases pre with
      | nil => simp at h
      | cons k1 pre1 =>
        simp only [List.cons_append, List.cons.injEq] at h
        obtain ⟨hk1, h⟩ := h
        subst hk1
        cases pre1 with
        | nil =>
          simp only [List.nil_append, List.cons.injEq, Step.idx.injEq] at h
          obtain ⟨hi, _⟩ := h
          subst hi
          exact ⟨value, hv, hi0⟩
        | cons k2 pre2 =>
          simp only [List.cons_append, List.cons.injEq] at h
          obtain ⟨hk2, h⟩ := h
          subst hk2
          obtain ⟨xs, hxs, hlt⟩ := hidx pre2 i post h
          refine ⟨xs, ?_, hlt⟩
          have hsplit : path ++ Step.key field :: Step.idx i0 :: pre2 =
              (path ++ [Step.key field]) ++ (Step.idx i0 :: pre2) := by simp
          rw [hsplit, getProperty_append, hv, getProperty_cons]
          have hroot := getProperty_of_falsy_root hxs
          simpa [truthy, getField] using hroot
    · rw [getPathsFrom_walk hw] at hp
      obtain ⟨s, hs, hidx⟩ := ih _ _ _ hp
      refine ⟨Step.key field :: s, by simp [hs], fun pre i post h => ?_⟩
      cases pre with
      | nil => simp at h
      | cons k1 pre1 =>
        simp only [List.cons_append, List.cons.injEq] at h
        obtain ⟨hk1, h⟩ := h
        subst hk1
        obtain ⟨xs, hxs, hlt⟩ := hidx pre1 i post h
        exact ⟨xs, by simpa using hxs, hlt⟩

/-- C19. Every concrete path returned by `getPaths`, its index steps erased, is
exactly the input segment list; and every index step `i` of it stands right
after a part of the path whose value in the tree is an array of length greater
than `i`. -/
theorem getPaths_provenance (tree : JSVal) (segments : List String) (p : List Step)
    (hp : p ∈ getPaths tree segments) :
    fieldNames p = segments ∧
    ∀ (pre : List Step) (i : Nat) (post : List Step), p = pre ++ Step.idx i :: post →
      ∃ xs, getProperty tree pre = JSVal.arr xs ∧ i < xs.length := by
  refine ⟨getPaths_fieldNames hp, ?_⟩
  obtain ⟨s, hs, hidx⟩ := getPathsFrom_indices segments tree [] p hp
  simp only [List.nil_append] at hs hidx
  subst hs
  exact hidx

/-- Instance of C19: the second element of `persons` under `persons.name`. -/
theorem getPaths_provenance_witness :
    fieldNames [Step.key "persons", Step.idx 1, Step.key "name"] = ["persons", "name"] ∧
    ∀ (pre : List Step) (i : Nat) (post : List Step),
      [Step.key "persons", Step.idx 1, Step.key "name"] = pre ++ Step.idx i :: post →
      ∃ xs, getProperty (JSVal.obj [("persons", JSVal.arr [JSVal.obj [], JSVal.null])]) pre =
        JSVal.arr xs ∧ i < xs.length :=
  getPaths_provenance (JSVal.obj [("persons", JSVal.arr [JSVal.obj [], JSVal.null])])
    ["persons", "name"] [Step.key "persons", Step.idx 1, Step.key "name"] (by decide)

/-! ## The length rule and the address rule -/

theorem matchPieces_nil (s : List Char) : matchPieces [] s = true ↔ s = [] := by
  cases s <;> simp [matchPieces]

theorem matchPieces_cons (p : Piece) (ps : List Piece) (s : List Char) :
    matchPieces (p :: ps) s = true ↔
      ∃ u v : List Char, s = u ++ v ∧ p.admits u.length = true ∧
        (∀ c ∈ u, p.accepts c = true) ∧ matchPieces ps v = true := by
  simp only [matchPieces, List.any_eq_true, List.mem_range, Bool.and_eq_true, List.all_eq_true]
  constructor
  · rintro ⟨n, hn, ⟨hadm, hall⟩, hrest⟩
    refine ⟨s.take n, s.drop n, (List.take_append_drop n s).symm, ?_, hall, hrest⟩
    rw [List.length_take, Nat.min_eq_left (by omega)]
    exact hadm
  · rintro ⟨u, v, rfl, hadm, hall, hrest⟩
    refine ⟨u.length, by simp; omega, ⟨hadm, ?_⟩, ?_⟩
    · simpa using hall
    · simpa using hrest

theorem admits_plus (cls : Char → Bool) (u : List Char) :
    Piece.admits { accepts := cls, least := 1, most := none } u.length = true ↔ u ≠ [] := by
  cases u <;> simp [Piece.admits]

theorem admits_one (c0 : Char) (u : List Char) :
    (Piece.admits { accepts := fun c => c == c0, least := 1, most := some 1 } u.length = true ∧
      ∀ c ∈ u, (c == c0) = true) ↔ u = [c0] := by
  constructor
  · rintro ⟨hadm, hall⟩
    simp only [Piece.admits, Bool.and_eq_true, decide_eq_true_eq] at hadm
    match u, hadm, hall with
    | [c], _, hall =>
      have := hall c (by simp)
      simp only [beq_iff_eq] at this
      rw [this]
    | [], hadm, _ => simp at hadm
    | _ :: _ :: _, hadm, _ => simp at hadm
  · rintro rfl
    simp [Piece.admits]

theorem admits_range (cls : Char → Bool) (lo hi : Nat) (u : List Char) :
    Piece.admits { accepts := cls, least := lo, most := some hi } u.length = true ↔
      lo ≤ u.length ∧ u.length ≤ hi := by
  simp [Piece.admits]

theorem matchPieces_emailPattern (s : List Char) :
    matchPieces emailPattern s = true ↔ EmailForm s := by
  unfold emailPattern EmailForm
  simp only [matchPieces_cons, matchPieces_nil]
  constructor
  · rintro ⟨loc, r1, rfl, h1, hloc, at1, r2, rfl, hat, hatc, dom, r3, rfl, h3, hdom,
      dot, r4, rfl, hdot, hdotc, tld, r5, rfl, h5, htld, rfl⟩
    have hat' := (admits_one '@' at1).mp ⟨hat, hatc⟩
    have hdot' := (admits_one '.' dot).mp ⟨hdot, hdotc⟩
    subst hat' hdot'
    have h5' := (admits_range isLetter 2 4 tld).mp h5
    exact ⟨loc, dom, tld, by simp, (admits_plus localClass loc).mp h1, hloc,
      (admits_plus domainClass dom).mp h3, hdom, h5'.1, h5'.2, htld⟩
  · rintro ⟨loc, dom, tld, rfl, h1, hloc, h3, hdom, h5, h5', htld⟩
    refine ⟨loc, _, rfl, (admits_plus localClass loc).mpr h1, hloc, ['@'], _, rfl,
      ((admits_one '@' ['@']).mpr rfl).1, ((admits_one '@' ['@']).mpr rfl).2,
      dom, _, rfl, (admits_plus domainClass dom).mpr h3, hdom, ['.'], _, rfl,
      ((admits_one '.' ['.']).mpr rfl).1, ((admits_one '.' ['.']).mpr rfl).2,
      tld, [], by simp, (admits_range isLetter 2 4 tld).mpr ⟨h5, h5'⟩, htld, rfl⟩

/-- The two addresses of C16 and of the repository's test (test lines 37-51):
`'john@test.com'` is of the form and is accepted, `'john@t.m'` is not and is
rejected. -/
theorem validEmail_test (toText : JSVal → String) :
    EmailForm "john@test.com".data ∧ ¬ EmailForm "john@t.m".data ∧
    (Validation.create (JSVal.obj [("email", JSVal.str "john@test.com")])).validEmail
        toText "email" (some "invalid email") =
      Except.ok ⟨JSVal.obj [("email", JSVal.str "john@test.com")], JSVal.obj []⟩ ∧
    (Validation.create (JSVal.obj [("email", JSVal.str "john@t.m")])).validEmail
        toText "email" (some "invalid email") =
      Except.ok ⟨JSVal.obj [("email", JSVal.str "john@t.m")],
        JSVal.obj [("email", JSVal.str "invalid email")]⟩ := by
  refine ⟨(matchPieces_emailPattern _).mp (by decide),
    fun h => absurd ((matchPieces_emailPattern _).mpr h) (by decide), rfl, rfl⟩

/-! ## Field names that contain the path separator

C15 and C16 speak of a top-level field, that is of a path of one segment.  A
name with a dot is a path of several segments, and the rule looks for a nested
value. -/

/-- On `{ 'a.b': 'xyz' }` the call `maxLength('a.b', 1)` looks for the field
`b` of the field `a`, finds no value and records nothing. -/
theorem maxLength_dotted_example :
    (Validation.create (JSVal.obj [("a.b", JSVal.str "xyz")])).maxLength (fun v => v)
        "a.b" 1 none =
      Except.ok ⟨JSVal.obj [("a.b", JSVal.str "xyz")], JSVal.obj []⟩ := by
  rfl

/-- On `{ 'a.b': 'x' }` the call `validEmail('a.b')` looks for the field `b`
of the field `a`, finds no value and records nothing. -/
theorem validEmail_dotted_example :
    (Validation.create (JSVal.obj [("a.b", JSVal.str "x")])).validEmail (fun _ => "")
        "a.b" none =
      Except.ok ⟨JSVal.obj [("a.b", JSVal.str "x")], JSVal.obj []⟩ := by
  rfl

end PropertyValidation
